import Mathlib

/-!
Shallow embedding of the `bpe-tokenizer` crate (vocabulary-driven greedy
longest-match BPE tokenizer) and proofs about its behaviour.

The source files embedded here are `src/constants.rs`, `src/errors.rs` and
`src/tokenizer.rs`.  Rust's `HashMap<String, isize>` is modelled by the
lookup function `String → Option Int` it denotes (insert overwrites, lookup
returns the stored score); `isize` is modelled as a mathematical integer
with the 64-bit range enforced where the source enforces it (string
parsing).  Unicode sentence/word segmentation and lowercasing come from the
external `unicode-segmentation` crate / Rust std and are treated as
parameters (a `Segmenter`), as the specification declares them external
capabilities.
-/

namespace BPETok

/-! ## Constants (`src/constants.rs`) -/

/-- The character used to denote word breaks in the tokenized output. -/
def WORD_BREAK_CHAR : String := "▁"

/-- The token used to mark the start of a sentence. -/
def SENTENCE_START_TOKEN : String := "<s>"

/-- The token used to mark the end of a sentence. -/
def SENTENCE_END_TOKEN : String := "</s>"

/-- The token used to represent unknown words or subwords. -/
def UNKNOWN_TOKEN : String := "<unk>"

/-! ## Errors (`src/errors.rs`) -/

/-- Errors that can occur during BPE tokenization operations. -/
inductive BytePairEncoderError where
  | InvalidFile (path : String)
  | InvalidVocabularyInput
  | DecompressionError (msg : String)
  | DeserializationError (msg : String)
  | NoDefaultVocabFeature
deriving DecidableEq, Repr

/-! ## Vocabulary store model

Rust's `HashMap<String, isize>` is modelled by its lookup function.
`hmInsert` is `HashMap::insert` (overwrites an existing key),
`hmEmpty` is `HashMap::new`. -/

/-- The lookup function denoted by a `HashMap<String, isize>`. -/
def Vocab : Type := String → Option Int

/-- `HashMap::new()`: the empty map. -/
def hmEmpty : Vocab := fun _ => none

/-- `HashMap::insert(k, v)`: overwrites any existing binding for `k`. -/
def hmInsert (m : Vocab) (k : String) (v : Int) : Vocab :=
  fun q => if q = k then some v else m q

/-- `BytePairEncoder` struct: holds the token-to-score mapping. -/
structure BytePairEncoder where
  tokens : Vocab

/-! ## Vocabulary parsing (`BytePairEncoder::new_from_str`)

`input.lines()` (Rust `str::lines`): split at `'\n'`, dropping a final
empty piece produced by a trailing newline, and stripping a `'\r'` from the
end of every piece that was followed by a `'\n'` (i.e. every piece except
the last one when the input does not end in a newline). -/

/-- Split a character list at every `'\n'` (the pieces do not contain it). -/
def splitNl : List Char → List (List Char)
  | [] => [[]]
  | c :: rest =>
    if c = '\n' then [] :: splitNl rest
    else
      match splitNl rest with
      | [] => [[c]]
      | l :: ls => (c :: l) :: ls

/-- Strip one trailing carriage return, as Rust `lines` does for `"\r\n"`. -/
def stripCR (l : List Char) : List Char :=
  if l.getLast? = some '\r' then l.dropLast else l

/-- Process the pieces produced by `splitNl`: every piece except the final
one was terminated by `'\n'` and gets its trailing `'\r'` stripped; a final
empty piece (input ended with `'\n'`) is dropped; a final non-empty piece is
kept verbatim. -/
def linesAux : List (List Char) → List (List Char)
  | [] => []
  | [last] => if last = [] then [] else [last]
  | p :: rest => stripCR p :: linesAux rest

/-- Rust `str::lines`, as a list of lines. -/
def rustLines (s : String) : List String :=
  (linesAux (splitNl s.toList)).map List.asString

/-- Helper for `str::split_once('\t')` on the character list. -/
def splitOnceTabAux : List Char → Option (List Char × List Char)
  | [] => none
  | c :: rest =>
    if c = '\t' then some ([], rest)
    else
      match splitOnceTabAux rest with
      | none => none
      | some (a, b) => some (c :: a, b)

/-- Rust `str::split_once('\t')`: splits at the first tab, or `none` when
the line has no tab. -/
def split_once_tab (s : String) : Option (String × String) :=
  (splitOnceTabAux s.toList).map (fun p => (p.1.asString, p.2.asString))

/-- Smallest `isize` value on the 64-bit reference platform. -/
def isizeMin : Int := -(2 ^ 63)

/-- Largest `isize` value on the 64-bit reference platform. -/
def isizeMax : Int := 2 ^ 63 - 1

/-- Numeric value of a list of ASCII decimal digits. -/
def digitsToNat (l : List Char) : Nat :=
  l.foldl (fun acc c => acc * 10 + (c.toNat - 48)) 0

/-- Parse a non-empty, all-digit character list to its value. -/
def parseDigits (l : List Char) : Option Nat :=
  if l ≠ [] ∧ l.all (fun c => c.isDigit) then some (digitsToNat l) else none

/-- Rust `str::parse::<isize>()`: an optional sign followed by one or more
ASCII digits, rejected on overflow of the 64-bit `isize` range. -/
def parseIsize (s : String) : Option Int :=
  let signed : Bool × List Char :=
    match s.toList with
    | '+' :: rest => (false, rest)
    | '-' :: rest => (true, rest)
    | l => (false, l)
  match parseDigits signed.2 with
  | none => none
  | some n =>
    if signed.1 then
      if (n : Int) ≤ 2 ^ 63 then some (-(n : Int)) else none
    else
      if (n : Int) ≤ isizeMax then some (n : Int) else none

/-- The loop body of `new_from_str`: fold the parsed lines into the map,
aborting with `InvalidVocabularyInput` on the first malformed line. -/
def buildTokens : List String → Vocab → Except BytePairEncoderError Vocab
  | [], m => .ok m
  | line :: rest, m =>
    match split_once_tab line with
    | none => .error .InvalidVocabularyInput
    | some (tok, scoreStr) =>
      match parseIsize scoreStr with
      | none => .error .InvalidVocabularyInput
      | some score => buildTokens rest (hmInsert m tok score)

/-- `BytePairEncoder::new_from_str`. -/
def new_from_str (input : String) : Except BytePairEncoderError BytePairEncoder :=
  (buildTokens (rustLines input) hmEmpty).map BytePairEncoder.mk

/-! ## Word tokenizer (`BytePairEncoder::tokenize_word`)

`tokenize_word` first converts the word to a `Vec<char>` (here `List Char`)
and scans candidate substring lengths `len` from `word.len()` down to `1`;
for each length it collects every in-vocabulary substring of that length
(`collectMatches`), and on the first length with a non-empty match list it
takes the match with the highest score (`max_by_key`, which returns the
last of several equally-maximal elements) and recurses on the prefix before
and the suffix after the match.  The recursion is embedded with explicit
fuel; `tokenizeWordFuel_stable` below shows any fuel of at least the word
length computes the same (fuel-free) result. -/

/-- The substring `word[s..s+L]` materialised as a `String`
(`word[start..end].iter().collect::<String>()`). -/
def substrTok (word : List Char) (s L : Nat) : String :=
  ((word.drop s).take L).asString

/-- A collected match: the candidate string and its span `(start, end)`. -/
def score_of (t : Vocab) (m : String × Nat × Nat) : Int :=
  (t m.1).getD isizeMin

/-- The inner loop at one candidate length `L`: every start position
`0 ≤ s ≤ word.len - L` whose substring of length `L` is in the vocabulary,
in increasing order of `s`. -/
def collectMatches (t : Vocab) (word : List Char) (L : Nat) :
    List (String × Nat × Nat) :=
  (List.range (word.length - L + 1)).filterMap (fun s =>
    let c := substrTok word s L
    if (t c).isSome then some (c, s, s + L) else none)

/-- One step of Rust `Iterator::max_by_key` on the score: keeps the running
maximum, preferring the newer element on ties. -/
def maxStep (t : Vocab) (acc : Option (String × Nat × Nat))
    (x : String × Nat × Nat) : Option (String × Nat × Nat) :=
  match acc with
  | none => some x
  | some a => if score_of t a ≤ score_of t x then some x else some a

/-- Rust `Iterator::max_by_key` on the score: of several equally-maximal
elements the last one is returned. -/
def maxByScore (t : Vocab) (l : List (String × Nat × Nat)) :
    Option (String × Nat × Nat) :=
  l.foldl (maxStep t) none

/-- The outer loop of `tokenize_word`: try candidate lengths `len, len-1,
..., 1`, returning the best match at the first length with any match. -/
def findMatchGo (t : Vocab) (word : List Char) : Nat → Option (String × Nat × Nat)
  | 0 => none
  | L + 1 =>
    let ms := collectMatches t word (L + 1)
    if ms.isEmpty then findMatchGo t word L else maxByScore t ms

/-- The match selected by `tokenize_word`'s length scan, if any. -/
def findMatch (t : Vocab) (word : List Char) : Option (String × Nat × Nat) :=
  findMatchGo t word word.length

/-- `tokenize_word` with explicit recursion fuel. -/
def tokenizeWordFuel (t : Vocab) : Nat → List Char → List String
  | 0, _ => []
  | fuel + 1, word =>
    if word.isEmpty then []
    else
      match findMatch t word with
      | some (c, s, e) =>
        tokenizeWordFuel t fuel (word.take s) ++ [c] ++
          tokenizeWordFuel t fuel (word.drop e)
      | none => [UNKNOWN_TOKEN]

/-- `tokenize_word` on the character list: the fuel `word.length` always
suffices (`tokenizeWordFuel_stable`). -/
def tokenizeWordChars (t : Vocab) (word : List Char) : List String :=
  tokenizeWordFuel t word.length word

/-- `BytePairEncoder::tokenize_word`. -/
def tokenize_word (enc : BytePairEncoder) (text : String) : List String :=
  tokenizeWordChars enc.tokens text.toList

/-- Some contiguous substring of length `L` of the word is present in the
vocabulary. -/
def hasMatchAt (t : Vocab) (word : List Char) (L : Nat) : Prop :=
  ∃ s, s + L ≤ word.length ∧ (t (substrTok word s L)).isSome

/-! ## Sentence assembler and text pipeline

Unicode sentence segmentation, word segmentation and lowercasing are
external capabilities (the `unicode-segmentation` crate and Rust's
`str::to_lowercase`); the pipeline is parametrized by them. -/

/-- The external Unicode segmentation / lowercasing capabilities consumed
by the pipeline. -/
structure Segmenter where
  unicodeSentences : String → List String
  unicodeWords : String → List String
  toLowercase : String → String

/-- `tokenize_with_sentence_markers_iter`: sentence start marker, then
every Unicode word lower-cased, prefixed with the word-break character and
fed through `tokenize_word`, then the sentence end marker. -/
def tokenize_with_sentence_markers_iter (seg : Segmenter)
    (enc : BytePairEncoder) (sentence : String) : List String :=
  [SENTENCE_START_TOKEN] ++
    ((seg.unicodeWords sentence).flatMap fun w =>
      tokenize_word enc (WORD_BREAK_CHAR ++ seg.toLowercase w)) ++
    [SENTENCE_END_TOKEN]

/-- `tokenize_sentences_iter`: one token sequence per Unicode sentence. -/
def tokenize_sentences_iter (seg : Segmenter) (enc : BytePairEncoder)
    (text : String) : List (List String) :=
  (seg.unicodeSentences text).map (tokenize_with_sentence_markers_iter seg enc)

/-- `tokenize_iter`: the flattening of `tokenize_sentences_iter`. -/
def tokenize_iter (seg : Segmenter) (enc : BytePairEncoder)
    (text : String) : List String :=
  (tokenize_sentences_iter seg enc text).flatten

/-- `tokenize_sentences`: the eager collection of
`tokenize_sentences_iter`. -/
def tokenize_sentences (seg : Segmenter) (enc : BytePairEncoder)
    (text : String) : List (List String) :=
  tokenize_sentences_iter seg enc text

/-- `tokenize`: the eager collection of `tokenize_iter`. -/
def tokenize (seg : Segmenter) (enc : BytePairEncoder)
    (text : String) : List String :=
  tokenize_iter seg enc text

/-! ## Example vocabularies from the specification -/

/-- The vocabulary of the longest-match priority example. -/
def exVocab1 : BytePairEncoder :=
  ⟨fun s =>
    if s = "partial" then some 1
    else if s = "par" then some 2
    else if s = "tial" then some 3
    else if s = "▁" then some 4
    else none⟩

/-- The vocabulary of the recursive decomposition example. -/
def exVocab2 : BytePairEncoder :=
  ⟨fun s =>
    if s = "hell" then some 1
    else if s = "o" then some 2
    else if s = "wo" then some 3
    else if s = "rld" then some 4
    else if s = "▁" then some 5
    else none⟩

/-- The vocabulary of the sentence wrapping example. -/
def exVocab3 : BytePairEncoder :=
  ⟨fun s =>
    if s = "hello" then some 1
    else if s = "world" then some 2
    else if s = "▁" then some 3
    else none⟩

/-- A concrete segmenter used to instantiate universally-quantified
theorems: it treats the whole text as one sentence (none for empty text),
knows the words of `"Hello, world!"`, and lower-cases the two words of that
example. -/
def exSegmenter : Segmenter :=
  ⟨fun text => if text = "" then [] else [text],
   fun sentence => if sentence = "Hello, world!" then ["Hello", "world"] else [],
   fun w => if w = "Hello" then "hello" else if w = "world" then "world" else w⟩

instance hasMatchAt.instDecidable (t : Vocab) (word : List Char) (L : Nat) :
    Decidable (hasMatchAt t word L) :=
  decidable_of_iff
    ((List.range (word.length + 1)).any
      (fun s => decide (s + L ≤ word.length) && (t (substrTok word s L)).isSome))
    (by
      rw [List.any_eq_true]
      constructor
      · rintro ⟨s, _, h⟩
        rw [Bool.and_eq_true, decide_eq_true_eq] at h
        exact ⟨s, h⟩
      · rintro ⟨s, h1, h2⟩
        refine ⟨s, List.mem_range.mpr (by omega), ?_⟩
        rw [Bool.and_eq_true, decide_eq_true_eq]
        exact ⟨h1, h2⟩)

/-- A vocabulary line is malformed when it cannot be split on a tab, or
its score part does not parse as a base-10 signed 64-bit integer. -/
def malformedLine (line : String) : Prop :=
  match split_once_tab line with
  | none => True
  | some (_, sc) => parseIsize sc = none

instance malformedLine.instDecidable (line : String) :
    Decidable (malformedLine line) := by
  unfold malformedLine
  cases hsp : split_once_tab line with
  | none => exact isTrue trivial
  | some p =>
    obtain ⟨tk, sc⟩ := p
    exact (inferInstance : Decidable (parseIsize sc = none))

/-- The scores carried by the well-formed lines whose token part is `tok`,
in line order. -/
def scoresFor (lines : List String) (tok : String) : List Int :=
  lines.filterMap (fun line =>
    match split_once_tab line with
    | some (tk, sc) => if tk = tok then parseIsize sc else none
    | none => none)

/-! ## Lemmas about the match search -/

theorem mem_collectMatches {t : Vocab} {word : List Char} {L : Nat}
    {x : String × Nat × Nat} :
    x ∈ collectMatches t word L ↔
      ∃ s, s < word.length - L + 1 ∧ (t (substrTok word s L)).isSome ∧
        x = (substrTok word s L, s, s + L) := by
  simp only [collectMatches, List.mem_filterMap, List.mem_range]
  constructor
  · rintro ⟨s, hs, hf⟩
    by_cases h : (t (substrTok word s L)).isSome
    · refine ⟨s, hs, h, ?_⟩
      simp only [h, if_true, Option.some.injEq] at hf
      exact hf.symm
    · simp [h] at hf
  · rintro ⟨s, hs, h, rfl⟩
    exact ⟨s, hs, by simp [h]⟩

theorem collectMatches_eq_nil_iff {t : Vocab} {word : List Char} {L : Nat}
    (hL : L ≤ word.length) :
    collectMatches t word L = [] ↔ ¬ hasMatchAt t word L := by
  simp only [collectMatches, List.filterMap_eq_nil_iff, List.mem_range,
    hasMatchAt, not_exists]
  constructor
  · intro h s hs
    obtain ⟨hsL, hm⟩ := hs
    have hrange : s < word.length - L + 1 := by omega
    have := h s hrange
    simp [hm] at this
  · intro h s hs
    have hsL : s + L ≤ word.length := by omega
    by_cases hm : (t (substrTok word s L)).isSome
    · exact absurd ⟨hsL, hm⟩ (h s)
    · simp [hm]

theorem foldl_maxStep_spec (t : Vocab) (l : List (String × Nat × Nat)) :
    ∀ a : String × Nat × Nat,
      ∃ b, l.foldl (maxStep t) (some a) = some b ∧ (b = a ∨ b ∈ l) ∧
        score_of t a ≤ score_of t b ∧ ∀ y ∈ l, score_of t y ≤ score_of t b := by
  induction l with
  | nil =>
    intro a
    exact ⟨a, rfl, Or.inl rfl, le_refl _, by simp⟩
  | cons z xs ih =>
    intro a
    by_cases h : score_of t a ≤ score_of t z
    · obtain ⟨b, hb, hmem, hle, hall⟩ := ih z
      refine ⟨b, ?_, ?_, ?_, ?_⟩
      · simpa [maxStep, h] using hb
      · rcases hmem with rfl | hm
        · exact Or.inr (List.mem_cons_self b xs)
        · exact Or.inr (List.mem_cons_of_mem _ hm)
      · exact le_trans h hle
      · intro y hy
        rcases List.mem_cons.mp hy with rfl | hy'
        · exact hle
        · exact hall y hy'
    · obtain ⟨b, hb, hmem, hle, hall⟩ := ih a
      refine ⟨b, ?_, ?_, ?_, ?_⟩
      · simpa [maxStep, h] using hb
      · rcases hmem with rfl | hm
        · exact Or.inl rfl
        · exact Or.inr (List.mem_cons_of_mem _ hm)
      · exact hle
      · intro y hy
        rcases List.mem_cons.mp hy with rfl | hy'
        · exact le_trans (le_of_not_le h) hle
        · exact hall y hy'

theorem maxByScore_spec (t : Vocab) (l : List (String × Nat × Nat))
    (h : l ≠ []) :
    ∃ b, maxByScore t l = some b ∧ b ∈ l ∧
      ∀ y ∈ l, score_of t y ≤ score_of t b := by
  match l with
  | [] => exact absurd rfl h
  | z :: xs =>
    obtain ⟨b, hb, hmem, hle, hall⟩ := foldl_maxStep_spec t xs z
    refine ⟨b, ?_, ?_, ?_⟩
    · simpa [maxByScore, maxStep] using hb
    · rcases hmem with rfl | hm
      · exact List.mem_cons_self b xs
      · exact List.mem_cons_of_mem _ hm
    · intro y hy
      rcases List.mem_cons.mp hy with rfl | hy'
      · exact hle
      · exact hall y hy'

/-- The length scan: a returned match lies inside the word, is the
substring of its span, belongs to the match list of its length, no longer
length (up to the scanned bound) has any match, and its score is maximal
among the matches of its length. -/
theorem findMatchGo_spec (t : Vocab) (word : List Char) :
    ∀ len, len ≤ word.length →
      ∀ c s e, findMatchGo t word len = some (c, s, e) →
        s < e ∧ e ≤ word.length ∧ c = substrTok word s (e - s) ∧
        (c, s, e) ∈ collectMatches t word (e - s) ∧
        (∀ L, e - s < L → L ≤ len → collectMatches t word L = []) ∧
        (∀ y ∈ collectMatches t word (e - s),
          score_of t y ≤ score_of t (c, s, e)) := by
  intro len
  induction len with
  | zero =>
    intro _ c s e h
    simp [findMatchGo] at h
  | succ L ih =>
    intro hlen c s e h
    by_cases hemp : (collectMatches t word (L + 1)).isEmpty
    · have h' : findMatchGo t word L = some (c, s, e) := by
        simpa [findMatchGo, hemp] using h
      have hLlen : L ≤ word.length := by omega
      obtain ⟨h1, h2, h3, h4, h5, h6⟩ := ih hLlen c s e h'
      refine ⟨h1, h2, h3, h4, ?_, h6⟩
      intro L' hgt hle
      rcases Nat.lt_or_ge L' (L + 1) with hlt | hge
      · exact h5 L' hgt (by omega)
      · have hL' : L' = L + 1 := by omega
        subst hL'
        exact List.isEmpty_iff.mp hemp
    · have hms : collectMatches t word (L + 1) ≠ [] := by
        simpa [List.isEmpty_iff] using hemp
      have heq : findMatchGo t word (L + 1) =
          maxByScore t (collectMatches t word (L + 1)) := by
        simp [findMatchGo, hemp]
      obtain ⟨b, hb, hbmem, hball⟩ := maxByScore_spec t _ hms
      rw [heq, hb] at h
      injection h with hbce
      subst hbce
      obtain ⟨s', hs', hsome, heq2⟩ := mem_collectMatches.mp hbmem
      simp only [Prod.mk.injEq] at heq2
      obtain ⟨hc, hs2, he⟩ := heq2
      subst hs2
      subst he
      have hes : s + (L + 1) - s = L + 1 := by omega
      have hwl : s + (L + 1) ≤ word.length := by omega
      refine ⟨by omega, hwl, by rw [hes]; exact hc, by rw [hes]; exact hbmem,
        ?_, by rw [hes]; exact hball⟩
      intro L' hgt hle
      omega

/-- The length scan fails exactly when no length from the bound down to 1
has any match. -/
theorem findMatchGo_none_iff (t : Vocab) (word : List Char) :
    ∀ len, len ≤ word.length →
      (findMatchGo t word len = none ↔
        ∀ L, 1 ≤ L → L ≤ len → collectMatches t word L = []) := by
  intro len
  induction len with
  | zero =>
    intro _
    simp only [findMatchGo, true_iff]
    intro L h1 h2
    omega
  | succ L ih =>
    intro hlen
    have hL : L ≤ word.length := by omega
    by_cases hemp : (collectMatches t word (L + 1)).isEmpty
    · have hnil : collectMatches t word (L + 1) = [] := List.isEmpty_iff.mp hemp
      rw [show findMatchGo t word (L + 1) = findMatchGo t word L by
        simp [findMatchGo, hemp]]
      rw [ih hL]
      constructor
      · intro h L' h1 h2
        rcases Nat.lt_or_ge L' (L + 1) with hlt | hge
        · exact h L' h1 (by omega)
        · have hL' : L' = L + 1 := by omega
          subst hL'
          exact hnil
      · intro h L' h1 h2
        exact h L' h1 (by omega)
    · have hms : collectMatches t word (L + 1) ≠ [] := by
        simpa [List.isEmpty_iff] using hemp
      have heq : findMatchGo t word (L + 1) =
          maxByScore t (collectMatches t word (L + 1)) := by
        simp [findMatchGo, hemp]
      obtain ⟨b, hb, _, _⟩ := maxByScore_spec t _ hms
      rw [heq, hb]
      constructor
      · intro h
        simp at h
      · intro h
        exact absurd (h (L + 1) (by omega) (le_refl _)) hms

/-- Stabilization: any fuel of at least the word's character count computes
the fuel-free result, so the recursion of `tokenize_word` terminates with
recursion depth bounded by the word length. -/
theorem tokenizeWordFuel_stable (t : Vocab) (fuel : Nat) :
    ∀ word : List Char, word.length ≤ fuel →
      tokenizeWordFuel t fuel word = tokenizeWordChars t word := by
  induction fuel using Nat.strong_induction_on with
  | _ fuel ih =>
    intro word hw
    cases fuel with
    | zero =>
      have hnil : word = [] := List.eq_nil_of_length_eq_zero (by omega)
      subst hnil
      rfl
    | succ f =>
      by_cases hemp : word = []
      · subst hemp
        simp [tokenizeWordFuel, tokenizeWordChars]
      · have hlen0 : word.length ≠ 0 := by
          simpa [List.length_eq_zero] using hemp
        obtain ⟨n, hn⟩ := Nat.exists_eq_succ_of_ne_zero hlen0
        have hempB : word.isEmpty = false := by
          simpa [List.isEmpty_iff] using hemp
        rcases hm : findMatch t word with _ | ⟨c, s, e⟩
        · simp only [tokenizeWordChars]
          rw [hn]
          simp [tokenizeWordFuel, hempB, hm]
        · obtain ⟨h1, h2, _, _, _, _⟩ :=
            findMatchGo_spec t word word.length (le_refl _) c s e hm
          have hts : (word.take s).length = s := by
            rw [List.length_take]
            omega
          have htd : (word.drop e).length = word.length - e :=
            List.length_drop _ _
          simp only [tokenizeWordChars]
          rw [hn]
          simp only [tokenizeWordFuel, hempB, Bool.false_eq_true, if_false, hm]
          rw [ih f (by omega) (word.take s) (by omega),
            ih n (by omega) (word.take s) (by omega),
            ih f (by omega) (word.drop e) (by omega),
            ih n (by omega) (word.drop e) (by omega)]

/-- Unfolding of `tokenize_word` when the length scan finds a match:
recurse left of the match, emit the match, recurse right of it. -/
theorem tokenizeWordChars_found (t : Vocab) (word : List Char)
    (c : String) (s e : Nat) (hne : word ≠ [])
    (hm : findMatch t word = some (c, s, e)) :
    tokenizeWordChars t word =
      tokenizeWordChars t (word.take s) ++ [c] ++
        tokenizeWordChars t (word.drop e) := by
  have hlen0 : word.length ≠ 0 := by
    simpa [List.length_eq_zero] using hne
  obtain ⟨n, hn⟩ := Nat.exists_eq_succ_of_ne_zero hlen0
  have hempB : word.isEmpty = false := by
    simpa [List.isEmpty_iff] using hne
  obtain ⟨h1, h2, _, _, _, _⟩ :=
    findMatchGo_spec t word word.length (le_refl _) c s e hm
  have hts : (word.take s).length = s := by
    rw [List.length_take]
    omega
  have htd : (word.drop e).length = word.length - e := List.length_drop _ _
  conv_lhs => rw [tokenizeWordChars, hn]
  simp only [tokenizeWordFuel, hempB, Bool.false_eq_true, if_false, hm]
  rw [tokenizeWordFuel_stable t n (word.take s) (by omega),
    tokenizeWordFuel_stable t n (word.drop e) (by omega)]

/-- Unfolding of `tokenize_word` when no substring of any length matches:
the whole word collapses to the unknown token. -/
theorem tokenizeWordChars_unk (t : Vocab) (word : List Char)
    (hne : word ≠ []) (hm : findMatch t word = none) :
    tokenizeWordChars t word = [UNKNOWN_TOKEN] := by
  have hlen0 : word.length ≠ 0 := by
    simpa [List.length_eq_zero] using hne
  obtain ⟨n, hn⟩ := Nat.exists_eq_succ_of_ne_zero hlen0
  have hempB : word.isEmpty = false := by
    simpa [List.isEmpty_iff] using hne
  conv_lhs => rw [tokenizeWordChars, hn]
  simp [tokenizeWordFuel, hempB, hm]

/-- `buildTokens` fails exactly when some line is malformed, and
`InvalidVocabularyInput` is the only error it produces. -/
theorem buildTokens_error_iff :
    ∀ (lines : List String) (m : Vocab),
      (buildTokens lines m = .error .InvalidVocabularyInput ↔
        ∃ line ∈ lines, malformedLine line) ∧
      (∀ e, buildTokens lines m = .error e → e = .InvalidVocabularyInput) := by
  intro lines
  induction lines with
  | nil =>
    intro m
    refine ⟨⟨fun h => ?_, fun h => ?_⟩, fun e h => ?_⟩
    · simp [buildTokens] at h
    · obtain ⟨l, hl, _⟩ := h
      simp at hl
    · simp [buildTokens] at h
  | cons line rest ih =>
    intro m
    cases hsp : split_once_tab line with
    | none =>
      have hmal : malformedLine line := by
        unfold malformedLine
        rw [hsp]
        trivial
      refine ⟨⟨fun _ => ⟨line, List.mem_cons_self line rest, hmal⟩,
        fun _ => ?_⟩, fun e h => ?_⟩
      · simp [buildTokens, hsp]
      · simp [buildTokens, hsp] at h
        exact h.symm
    | some p =>
      obtain ⟨tk, sc⟩ := p
      cases hps : parseIsize sc with
      | none =>
        have hmal : malformedLine line := by
          unfold malformedLine
          rw [hsp]
          exact hps
        refine ⟨⟨fun _ => ⟨line, List.mem_cons_self line rest, hmal⟩,
          fun _ => ?_⟩, fun e h => ?_⟩
        · simp [buildTokens, hsp, hps]
        · simp [buildTokens, hsp, hps] at h
          exact h.symm
      | some v =>
        have hnotmal : ¬ malformedLine line := by
          unfold malformedLine
          rw [hsp]
          simp [hps]
        have hstep : buildTokens (line :: rest) m =
            buildTokens rest (hmInsert m tk v) := by
          simp [buildTokens, hsp, hps]
        obtain ⟨ih1, ih2⟩ := ih (hmInsert m tk v)
        refine ⟨?_, fun e h => ih2 e (hstep ▸ h)⟩
        rw [hstep, ih1]
        constructor
        · rintro ⟨l, hl, hm⟩
          exact ⟨l, List.mem_cons_of_mem _ hl, hm⟩
        · rintro ⟨l, hl, hm⟩
          rcases List.mem_cons.mp hl with rfl | hl'
          · exact absurd hm hnotmal
          · exact ⟨l, hl', hm⟩

/-- When every line is well-formed, `buildTokens` succeeds and each token's
final score is the score of the last line mentioning it, falling back to
the initial map for tokens no line mentions. -/
theorem buildTokens_ok_lookup :
    ∀ (lines : List String) (m : Vocab),
      (∀ line ∈ lines, ¬ malformedLine line) →
      ∃ m', buildTokens lines m = .ok m' ∧
        ∀ tok, m' tok =
          match (scoresFor lines tok).getLast? with
          | some v => some v
          | none => m tok := by
  intro lines
  induction lines with
  | nil =>
    intro m _
    exact ⟨m, rfl, fun tok => rfl⟩
  | cons line rest ih =>
    intro m hall
    have hline : ¬ malformedLine line := hall line (List.mem_cons_self line rest)
    cases hsp : split_once_tab line with
    | none =>
      exfalso
      apply hline
      unfold malformedLine
      rw [hsp]
      trivial
    | some p =>
      obtain ⟨tk, sc⟩ := p
      cases hps : parseIsize sc with
      | none =>
        exfalso
        apply hline
        unfold malformedLine
        rw [hsp]
        exact hps
      | some v =>
        have hstep : buildTokens (line :: rest) m =
            buildTokens rest (hmInsert m tk v) := by
          simp [buildTokens, hsp, hps]
        obtain ⟨m', hok, hlook⟩ := ih (hmInsert m tk v)
          (fun l hl => hall l (List.mem_cons_of_mem _ hl))
        refine ⟨m', by rw [hstep]; exact hok, fun tok => ?_⟩
        have hsf : scoresFor (line :: rest) tok =
            (if tk = tok then [v] else []) ++ scoresFor rest tok := by
          simp only [scoresFor, List.filterMap_cons, hsp, hps]
          by_cases htk : tk = tok
          · simp [htk]
          · simp [htk]
        rw [hlook tok, hsf]
        by_cases htk : tk = tok
        · subst htk
          rw [if_pos rfl]
          simp only [List.singleton_append]
          cases hsl : scoresFor rest tk with
          | nil =>
            simp [hmInsert]
          | cons w0 l' =>
            rw [List.getLast?_cons_cons]
            obtain ⟨w, hw⟩ : ∃ w, (w0 :: l').getLast? = some w :=
              ⟨(w0 :: l').getLast (by simp),
                List.getLast?_eq_getLast _ (by simp)⟩
            rw [hw]
        · have htok : tok ≠ tk := Ne.symm htk
          simp only [if_neg htk, List.nil_append]
          cases hgl : (scoresFor rest tok).getLast? with
          | none => simp [hmInsert, htok]
          | some w => rfl

/-! ## Claims -/

/-- C1: for every vocabulary store and non-empty word, the match selected
by `tokenize_word`'s length scan sits inside the word, is the substring of
its span, has a length at which some substring is in the vocabulary while
no longer length (up to the word length) has any vocabulary substring, and
its score is maximal among the substrings of the winning length; the scan
succeeds whenever any length has a match; and tokenizing `"▁partial"`
against `{"partial":1, "par":2, "tial":3, "▁":4}` yields
`["▁", "partial"]`. -/
theorem tokenize_word_longest_match_selection :
    (∀ (t : Vocab) (word : List Char) (c : String) (s e : Nat),
        word ≠ [] → findMatch t word = some (c, s, e) →
          s < e ∧ e ≤ word.length ∧ c = substrTok word s (e - s) ∧
          hasMatchAt t word (e - s) ∧
          (∀ L, e - s < L → L ≤ word.length → ¬ hasMatchAt t word L) ∧
          (∀ s', s' + (e - s) ≤ word.length →
            (t (substrTok word s' (e - s))).isSome →
            score_of t (substrTok word s' (e - s), s', s' + (e - s)) ≤
              score_of t (c, s, e))) ∧
    (∀ (t : Vocab) (word : List Char) (L : Nat),
        1 ≤ L → L ≤ word.length → hasMatchAt t word L →
          (findMatch t word).isSome) ∧
    tokenize_word exVocab1 "▁partial" = ["▁", "partial"] := by
  refine ⟨?_, ?_, by decide⟩
  · intro t word c s e hne hm
    obtain ⟨h1, h2, h3, h4, h5, h6⟩ :=
      findMatchGo_spec t word word.length (le_refl _) c s e hm
    have hL : e - s ≤ word.length := by omega
    refine ⟨h1, h2, h3, ?_, ?_, ?_⟩
    · obtain ⟨s', hs', hsome, heq⟩ := mem_collectMatches.mp h4
      simp only [Prod.mk.injEq] at heq
      obtain ⟨hc, hss, hee⟩ := heq
      subst hss
      exact ⟨s, by omega, hsome⟩
    · intro L hgt hle
      rw [← collectMatches_eq_nil_iff hle]
      exact h5 L hgt hle
    · intro s' hs' hsome
      exact h6 _ (mem_collectMatches.mpr ⟨s', by omega, hsome, rfl⟩)
  · intro t word L h1 h2 hhas
    cases hfm : findMatch t word with
    | some x => rfl
    | none =>
      exfalso
      have hall := (findMatchGo_none_iff t word word.length (le_refl _)).mp hfm
      exact absurd hhas ((collectMatches_eq_nil_iff h2).mp (hall L h1 h2))

/-- Witness for C1 at vocabulary `exVocab1` and word `"▁partial"`: the scan
selects the span `[1, 8)` carrying `"partial"`. -/
theorem tokenize_word_longest_match_selection_witness :
    ("▁partial".toList ≠ [] ∧
      findMatch exVocab1.tokens "▁partial".toList = some ("partial", 1, 8)) ∧
    (1 < 8 ∧ 8 ≤ "▁partial".toList.length ∧
      "partial" = substrTok "▁partial".toList 1 (8 - 1) ∧
      hasMatchAt exVocab1.tokens "▁partial".toList (8 - 1) ∧
      (∀ L, 8 - 1 < L → L ≤ "▁partial".toList.length →
        ¬ hasMatchAt exVocab1.tokens "▁partial".toList L) ∧
      (∀ s', s' + (8 - 1) ≤ "▁partial".toList.length →
        (exVocab1.tokens (substrTok "▁partial".toList s' (8 - 1))).isSome →
        score_of exVocab1.tokens
            (substrTok "▁partial".toList s' (8 - 1), s', s' + (8 - 1)) ≤
          score_of exVocab1.tokens ("partial", 1, 8))) :=
  ⟨⟨by decide, by decide⟩,
    tokenize_word_longest_match_selection.1 exVocab1.tokens "▁partial".toList
      "partial" 1 8 (by decide) (by decide)⟩

/-- C2: on a selected match at span `[s, e)` the result is the recursive
tokenization of the prefix, the matched token, then the recursive
tokenization of the suffix; and the two decomposition examples over
`{"hell":1,"o":2,"wo":3,"rld":4,"▁":5}` hold. -/
theorem tokenize_word_recursive_decomposition :
    (∀ (t : Vocab) (word : List Char) (c : String) (s e : Nat),
        word ≠ [] → findMatch t word = some (c, s, e) →
          tokenizeWordChars t word =
            tokenizeWordChars t (word.take s) ++ [c] ++
              tokenizeWordChars t (word.drop e)) ∧
    tokenize_word exVocab2 "▁hello" = ["▁", "hell", "o"] ∧
    tokenize_word exVocab2 "▁world" = ["▁", "wo", "rld"] :=
  ⟨fun t word c s e hne hm => tokenizeWordChars_found t word c s e hne hm,
    by decide, by decide⟩

/-- Witness for C2 at vocabulary `exVocab2` and word `"▁hello"`: the match
`("hell", 1, 5)` splits the word into `"▁"`, `"hell"`, `"o"`. -/
theorem tokenize_word_recursive_decomposition_witness :
    ("▁hello".toList ≠ [] ∧
      findMatch exVocab2.tokens "▁hello".toList = some ("hell", 1, 5)) ∧
    tokenizeWordChars exVocab2.tokens "▁hello".toList =
      tokenizeWordChars exVocab2.tokens ("▁hello".toList.take 1) ++ ["hell"] ++
        tokenizeWordChars exVocab2.tokens ("▁hello".toList.drop 5) :=
  ⟨⟨by decide, by decide⟩,
    tokenize_word_recursive_decomposition.1 exVocab2.tokens "▁hello".toList
      "hell" 1 5 (by decide) (by decide)⟩

/-- C3: a non-empty word none of whose contiguous substrings (of any
length from the word length down to 1) is in the vocabulary collapses to
exactly the one-element sequence containing the unknown token. -/
theorem tokenize_word_all_or_nothing_unknown :
    ∀ (t : Vocab) (word : List Char), word ≠ [] →
      (∀ L, 1 ≤ L → L ≤ word.length → ¬ hasMatchAt t word L) →
      tokenizeWordChars t word = [UNKNOWN_TOKEN] := by
  intro t word hne hno
  apply tokenizeWordChars_unk t word hne
  rw [findMatch, findMatchGo_none_iff t word word.length (le_refl _)]
  intro L h1 h2
  rw [collectMatches_eq_nil_iff h2]
  exact hno L h1 h2

/-- Witness for C3: against the vocabulary of `exVocab3`, the word `"zq"`
has no matching substring at any length and collapses to `["<unk>"]`. -/
theorem tokenize_word_all_or_nothing_unknown_witness :
    ("zq".toList ≠ [] ∧
      (∀ L, 1 ≤ L → L ≤ "zq".toList.length →
        ¬ hasMatchAt exVocab3.tokens "zq".toList L)) ∧
    tokenizeWordChars exVocab3.tokens "zq".toList = [UNKNOWN_TOKEN] := by
  have hlen : ("zq".toList).length = 2 := by decide
  have hno : ∀ L, 1 ≤ L → L ≤ "zq".toList.length →
      ¬ hasMatchAt exVocab3.tokens "zq".toList L := by
    intro L h1 h2
    rw [hlen] at h2
    interval_cases L
    · decide
    · decide
  exact ⟨⟨by decide, hno⟩,
    tokenize_word_all_or_nothing_unknown exVocab3.tokens "zq".toList
      (by decide) hno⟩

/-- C7: tokenization never fails once a store exists: the `max_by_key`
unwrap is safe because it is only consulted on a non-empty match list, and
the `isize::MIN` fallback score is never used because every collected
candidate is present in the vocabulary (its comparison key is its actual
stored score). -/
theorem tokenize_never_errors :
    (∀ (t : Vocab) (l : List (String × Nat × Nat)), l ≠ [] →
      (maxByScore t l).isSome) ∧
    (∀ (t : Vocab) (word : List Char) (L : Nat) (x : String × Nat × Nat),
      x ∈ collectMatches t word L →
        ∃ v, t x.1 = some v ∧ score_of t x = v) := by
  constructor
  · intro t l hne
    obtain ⟨b, hb, _, _⟩ := maxByScore_spec t l hne
    rw [hb]
    rfl
  · intro t word L x hx
    obtain ⟨s, hs, hsome, heq⟩ := mem_collectMatches.mp hx
    subst heq
    obtain ⟨v, hv⟩ := Option.isSome_iff_exists.mp hsome
    exact ⟨v, hv, by simp [score_of, hv]⟩

/-- Witness for C7: a singleton match list has a maximum, and the sole
match collected for `"par"` in `"▁partial"` at length 3 carries its stored
score 2. -/
theorem tokenize_never_errors_witness :
    ([("▁", 0, 1)] ≠ ([] : List (String × Nat × Nat)) ∧
      (maxByScore exVocab1.tokens [("▁", 0, 1)]).isSome) ∧
    (("par", 1, 4) ∈ collectMatches exVocab1.tokens "▁partial".toList 3 ∧
      ∃ v, exVocab1.tokens "par" = some v ∧
        score_of exVocab1.tokens ("par", 1, 4) = v) :=
  ⟨⟨by decide, tokenize_never_errors.1 exVocab1.tokens [("▁", 0, 1)] (by decide)⟩,
    ⟨by decide, tokenize_never_errors.2 exVocab1.tokens "▁partial".toList 3
      ("par", 1, 4) (by decide)⟩⟩

/-- C9: `tokenize_word` terminates on every input: any fuel of at least the
word length computes the stable result, the prefix and suffix of a selected
match are strictly shorter than the word, and the empty word is the
non-recursive base case. -/
theorem tokenize_word_terminates :
    (∀ (t : Vocab) (fuel : Nat) (word : List Char), word.length ≤ fuel →
      tokenizeWordFuel t fuel word = tokenizeWordChars t word) ∧
    (∀ (t : Vocab) (word : List Char) (c : String) (s e : Nat),
      word ≠ [] → findMatch t word = some (c, s, e) →
        (word.take s).length < word.length ∧
        (word.drop e).length < word.length) ∧
    (∀ t : Vocab, tokenizeWordChars t [] = []) := by
  refine ⟨fun t fuel word h => tokenizeWordFuel_stable t fuel word h, ?_, fun t => rfl⟩
  intro t word c s e hne hm
  obtain ⟨h1, h2, _, _, _, _⟩ :=
    findMatchGo_spec t word word.length (le_refl _) c s e hm
  constructor
  · rw [List.length_take]
    omega
  · rw [List.length_drop]
    omega

/-- Witness for C9 at `exVocab1` and `"▁partial"`: surplus fuel changes
nothing, and both recursive arguments of the selected match are strictly
shorter than the word. -/
theorem tokenize_word_terminates_witness :
    ("▁partial".toList.length ≤ 20 ∧
      tokenizeWordFuel exVocab1.tokens 20 "▁partial".toList =
        tokenizeWordChars exVocab1.tokens "▁partial".toList) ∧
    (("▁partial".toList.take 1).length < "▁partial".toList.length ∧
      ("▁partial".toList.drop 8).length < "▁partial".toList.length) :=
  ⟨⟨by decide,
      tokenize_word_terminates.1 exVocab1.tokens 20 "▁partial".toList (by decide)⟩,
    tokenize_word_terminates.2.1 exVocab1.tokens "▁partial".toList "partial" 1 8
      (by decide) (by decide)⟩

/-- C4: for every segmenter, store and text, the flat tokenization is
the in-order concatenation of the per-sentence sequences, and the iterator
variants produce the same sequences as the eager variants. -/
theorem tokenize_flattening_law :
    ∀ (seg : Segmenter) (enc : BytePairEncoder) (text : String),
      tokenize seg enc text = (tokenize_sentences seg enc text).flatten ∧
      tokenize seg enc text = tokenize_iter seg enc text ∧
      tokenize_sentences seg enc text = tokenize_sentences_iter seg enc text :=
  fun _ _ _ => ⟨rfl, rfl, rfl⟩

/-- C5: the assembled sequence for one sentence is exactly the start
marker, then for each Unicode word (in textual order) the tokenization of
the word-break character prepended to the lower-cased word, then the end
marker; and for the spec's segmentation of `"Hello, world!"` against
`{"hello":1,"world":2,"▁":3}` it is
`["<s>","▁","hello","▁","world","</s>"]`. -/
theorem tokenize_sentence_marker_assembly :
    (∀ (seg : Segmenter) (enc : BytePairEncoder) (sentence : String),
      tokenize_with_sentence_markers_iter seg enc sentence =
        [SENTENCE_START_TOKEN] ++
          ((seg.unicodeWords sentence).flatMap fun w =>
            tokenize_word enc (WORD_BREAK_CHAR ++ seg.toLowercase w)) ++
          [SENTENCE_END_TOKEN]) ∧
    (∀ seg : Segmenter,
      seg.unicodeWords "Hello, world!" = ["Hello", "world"] →
      seg.toLowercase "Hello" = "hello" →
      seg.toLowercase "world" = "world" →
      tokenize_with_sentence_markers_iter seg exVocab3 "Hello, world!" =
        ["<s>", "▁", "hello", "▁", "world", "</s>"]) := by
  refine ⟨fun seg enc sentence => rfl, ?_⟩
  intro seg hw h1 h2
  simp only [tokenize_with_sentence_markers_iter, hw, List.flatMap_cons,
    List.flatMap_nil, h1, h2]
  decide

/-- Witness for C5: the concrete segmenter `exSegmenter` satisfies the
segmentation hypotheses for `"Hello, world!"` and the assembled sentence is
the spec's example sequence. -/
theorem tokenize_sentence_marker_assembly_witness :
    (exSegmenter.unicodeWords "Hello, world!" = ["Hello", "world"] ∧
      exSegmenter.toLowercase "Hello" = "hello" ∧
      exSegmenter.toLowercase "world" = "world") ∧
    tokenize_with_sentence_markers_iter exSegmenter exVocab3 "Hello, world!" =
      ["<s>", "▁", "hello", "▁", "world", "</s>"] :=
  ⟨⟨by decide, by decide, by decide⟩,
    tokenize_sentence_marker_assembly.2 exSegmenter (by decide) (by decide)
      (by decide)⟩

/-- C8: when the sentence splitter yields no sentence for empty text, both
the nested and the flat tokenization of `""` are empty (zero sentences, not
one empty sentence), and `tokenize_word` of the empty word is the empty
sequence for every store. -/
theorem tokenize_empty_input :
    (∀ (seg : Segmenter) (enc : BytePairEncoder),
      seg.unicodeSentences "" = [] →
        tokenize_sentences seg enc "" = [] ∧ tokenize seg enc "" = []) ∧
    (∀ enc : BytePairEncoder, tokenize_word enc "" = []) := by
  refine ⟨?_, fun enc => rfl⟩
  intro seg enc h
  constructor
  · simp [tokenize_sentences, tokenize_sentences_iter, h]
  · simp [tokenize, tokenize_iter, tokenize_sentences_iter, h]

/-- Witness for C8: `exSegmenter` yields no sentence for empty text, and
both tokenization shapes of `""` are empty. -/
theorem tokenize_empty_input_witness :
    exSegmenter.unicodeSentences "" = [] ∧
    tokenize_sentences exSegmenter exVocab3 "" = [] ∧
    tokenize exSegmenter exVocab3 "" = [] :=
  ⟨by decide,
    (tokenize_empty_input.1 exSegmenter exVocab3 (by decide)).1,
    (tokenize_empty_input.1 exSegmenter exVocab3 (by decide)).2⟩

/-- C6: `new_from_str` fails with `InvalidVocabularyInput` exactly when
some line has no tab or a score part that does not parse as a signed 64-bit
integer; `InvalidVocabularyInput` is the only error it can return (so on
failure no store is produced); and empty input succeeds with an empty
store. -/
theorem new_from_str_error_iff :
    ∀ input : String,
      ((new_from_str input = .error .InvalidVocabularyInput) ↔
        ∃ line ∈ rustLines input, malformedLine line) ∧
      (∀ e, new_from_str input = .error e → e = .InvalidVocabularyInput) ∧
      new_from_str "" = .ok ⟨hmEmpty⟩ := by
  intro input
  obtain ⟨h1, h2⟩ := buildTokens_error_iff (rustLines input) hmEmpty
  refine ⟨?_, ?_, rfl⟩
  · rw [← h1]
    unfold new_from_str
    cases hb : buildTokens (rustLines input) hmEmpty with
    | ok m => simp [Except.map]
    | error e => simp [Except.map]
  · intro e h
    apply h2 e
    unfold new_from_str at h
    cases hb : buildTokens (rustLines input) hmEmpty with
    | ok m =>
      rw [hb] at h
      simp [Except.map] at h
    | error e' =>
      rw [hb] at h
      simp [Except.map] at h
      rw [h]

/-- Witness for C6: the line `"x 1"` (space, not tab) is malformed, and
construction on it fails with `InvalidVocabularyInput`. -/
theorem new_from_str_error_iff_witness :
    (∃ line ∈ rustLines "x 1", malformedLine line) ∧
    new_from_str "x 1" = .error .InvalidVocabularyInput :=
  ⟨by decide, ((new_from_str_error_iff "x 1").1).mpr (by decide)⟩

/-- C10: construction succeeds on any input whose lines are all
well-formed, duplicates included, and each token then maps to the score of
the last line carrying it. -/
theorem new_from_str_duplicate_last_wins :
    ∀ input : String,
      (∀ line ∈ rustLines input, ¬ malformedLine line) →
      ∃ enc, new_from_str input = .ok enc ∧
        ∀ tok, enc.tokens tok = (scoresFor (rustLines input) tok).getLast? := by
  intro input hall
  obtain ⟨m', hok, hlook⟩ := buildTokens_ok_lookup (rustLines input) hmEmpty hall
  refine ⟨⟨m'⟩, ?_, fun tok => ?_⟩
  · unfold new_from_str
    rw [hok]
    rfl
  · show m' tok = _
    rw [hlook tok]
    cases hgl : (scoresFor (rustLines input) tok).getLast? with
    | none => rfl
    | some v => rfl

/-- Witness for C10: the input repeats token `"a"` with scores 1 then 2;
construction succeeds and the last score wins. -/
theorem new_from_str_duplicate_last_wins_witness :
    ((∀ line ∈ rustLines "a\t1\na\t2", ¬ malformedLine line) ∧
      (scoresFor (rustLines "a\t1\na\t2") "a").getLast? = some 2) ∧
    ∃ enc, new_from_str "a\t1\na\t2" = .ok enc ∧
      ∀ tok, enc.tokens tok = (scoresFor (rustLines "a\t1\na\t2") tok).getLast? :=
  ⟨⟨by decide, by decide⟩,
    new_from_str_duplicate_last_wins "a\t1\na\t2" (by decide)⟩

end BPETok
